import Mathlib

/-!
Shallow embedding of the `GitInterface` class from `src/git-interface.js`.

Strings are modelled as `List Char`.  The JavaScript string primitives used by
the source (`split`, `trim`, `join`, `substring`, `parseInt`, `includes`) are
modelled by executable Lean functions below, and the methods of the class that
the claims concern are translated on top of them.  Subprocess interaction is
modelled by an `ExecOutcome` value describing what the spawned process did
(spawn error, or close with an exit code and the stream chunks that arrived);
the `execute` method's promise resolution is a function of that outcome.
-/

/-- JavaScript `s.split(sep)` for a nonempty separator, fuel-indexed so the
recursion is structural (the fuel is the length of the string, which always
suffices).  Splitting is on the leftmost occurrence, non-overlapping, exactly
as in JavaScript; an exhausted fuel on a nonempty string returns the rest
unsplit, a case that `jsSplit` never reaches. -/
def jsSplitF (sep : List Char) : Nat → List Char → List (List Char)
  | _, [] => [[]]
  | 0, s => [s]
  | fuel + 1, c :: cs =>
    if !sep.isEmpty && sep.isPrefixOf (c :: cs) then
      [] :: jsSplitF sep fuel (cs.drop (sep.length - 1))
    else
      match jsSplitF sep fuel cs with
      | [] => [[c]]
      | p :: ps => (c :: p) :: ps

/-- JavaScript `s.split(sep)` for a nonempty separator `sep`. -/
def jsSplit (sep s : List Char) : List (List Char) :=
  jsSplitF sep s.length s

/-- JavaScript `hay.includes(needle)`: substring occurrence test. -/
def hasSubstr (sep : List Char) : List Char → Bool
  | [] => sep.isEmpty
  | c :: cs => sep.isPrefixOf (c :: cs) || hasSubstr sep cs

/-- JavaScript `s.trim()`: strip whitespace from both ends (modelled with
`Char.isWhitespace`, which covers the whitespace the source can meet). -/
def jsTrim (l : List Char) : List Char :=
  ((l.dropWhile Char.isWhitespace).reverse.dropWhile Char.isWhitespace).reverse

/-- JavaScript `parts.join(sep)`. -/
def jsJoin (sep : List Char) : List (List Char) → List Char
  | [] => []
  | [l] => l
  | l :: ls => l ++ sep ++ jsJoin sep ls

/-- The decimal digit character for `n % 10`-style values (clamped at 9). -/
def digitChar (n : Nat) : Char :=
  if n = 0 then '0' else if n = 1 then '1' else if n = 2 then '2'
  else if n = 3 then '3' else if n = 4 then '4' else if n = 5 then '5'
  else if n = 6 then '6' else if n = 7 then '7' else if n = 8 then '8' else '9'

/-- Numeric value of a decimal digit character. -/
def digitVal (c : Char) : Nat := c.toNat - 48

/-- Decimal rendering of a natural number, fuel-indexed so the recursion is
structural; `natToDigits` supplies sufficient fuel. -/
def natToDigitsF : Nat → Nat → List Char
  | 0, n => [digitChar (n % 10)]
  | fuel + 1, n =>
    if n < 10 then [digitChar n]
    else natToDigitsF fuel (n / 10) ++ [digitChar (n % 10)]

/-- Decimal rendering of a natural number, as JavaScript renders an integral
number into a template literal. -/
def natToDigits (n : Nat) : List Char := natToDigitsF n n

/-- Value of a list of decimal digit characters, most significant first. -/
def digitsVal (l : List Char) : Nat :=
  l.foldl (fun a c => a * 10 + digitVal c) 0

/-- The longest leading run of decimal digits, or `none` when there is none;
the digit-consuming part of JavaScript `parseInt(s, 10)`. -/
def parseDigitsPrefix (r : List Char) : Option Nat :=
  let ds := r.takeWhile Char.isDigit
  if ds.isEmpty then none else some (digitsVal ds)

/-- JavaScript `parseInt(s, 10)` on a string: skip leading whitespace, read
an optional sign and then a nonempty digit run; `none` models `NaN`. -/
def jsParseIntCore (s : List Char) : Option Int :=
  match s.dropWhile Char.isWhitespace with
  | '-' :: rest => (parseDigitsPrefix rest).map (fun m : Nat => -(m : Int))
  | '+' :: rest => (parseDigitsPrefix rest).map (fun m : Nat => (m : Int))
  | t => (parseDigitsPrefix t).map (fun m : Nat => (m : Int))

/-- JavaScript `parseInt(x, 10)` where `x` is a string or `undefined`
(modelled by `none`); the result `none` models `NaN`. -/
def jsParseInt : Option (List Char) → Option Int
  | none => none
  | some s => jsParseIntCore s

/-- The object `execute` resolves with: `resolve({ stdout, stderr })` in the
source.  Note the source resolves only these two fields. -/
structure ExecResult where
  stdout : List Char
  stderr : List Char
deriving DecidableEq, Repr

/-- What the spawned process did: the `error` event fired with a message, or
the `close` event fired with an exit code (`none` models JavaScript `null`,
reported when the process was killed, e.g. on timeout) after the listed
stdout and stderr chunks arrived in order. -/
inductive ExecOutcome where
  | spawnError (message : List Char)
  | closed (exitCode : Option Nat) (stdoutChunks stderrChunks : List (List Char))
deriving DecidableEq

/-- The accumulation `stdout += data.toString()` over the arrived chunks. -/
def accumulate (chunks : List (List Char)) : List Char :=
  chunks.foldl (fun a c => a ++ c) []

/-- Rendering of the exit code into the rejection message template literal;
JavaScript renders `null` as the text `null`. -/
def showExitCode : Option Nat → List Char
  | none => "null".data
  | some n => natToDigits n

/-- The resolution of the promise returned by `execute` (src/git-interface.js
lines 54-78) as a function of the process outcome and of `options.failOnError`:
a spawn error rejects with `Command execution failed: ...`; a close rejects
with `Git command failed with code ...` when `failOnError` is set and the exit
code differs from 0, and otherwise resolves `{ stdout, stderr }`. -/
def execute (failOnError : Bool) : ExecOutcome → Except (List Char) ExecResult
  | .spawnError msg => .error ("Command execution failed: ".data ++ msg)
  | .closed exitCode oc ec =>
    if failOnError ∧ exitCode ≠ some 0 then
      .error ("Git command failed with code ".data ++ showExitCode exitCode
        ++ ": ".data ++ accumulate ec)
    else
      .ok { stdout := accumulate oc, stderr := accumulate ec }

/-- The effective timeout passed to `spawn`: `options.timeout || 60000`. -/
def executeTimeout : Option Nat → Nat
  | none => 60000
  | some n => if n = 0 then 60000 else n

/-- The hard-coded record sentinel `getCommits` splits on: `<END>` followed by
a newline. -/
def SENT : List Char := "<END>\n".data

/-- A parsed commit record.  The source reads positional lines out of the
split text with plain indexing, so a missing line yields `undefined`,
modelled by `none`; `date` stores the milliseconds value passed to
`new Date(parseInt(lines[3], 10) * 1000)`, with `none` modelling `NaN`
(an invalid date). -/
structure Commit where
  hash : Option (List Char)
  author : Option (List Char)
  email : Option (List Char)
  date : Option Int
  subject : Option (List Char)
  body : List Char
deriving DecidableEq, Repr

/-- The loop body of `getCommits` (src/git-interface.js lines 231-243): split
one sentinel-delimited piece into lines and read the fields positionally. -/
def parseCommitText (commitText : List Char) : Commit :=
  let lines := jsSplit ['\n'] commitText
  { hash := lines[0]?
    author := lines[1]?
    email := lines[2]?
    date := (jsParseInt lines[3]?).map (fun t => t * 1000)
    subject := lines[4]?
    body := jsTrim (jsJoin ['\n'] (lines.drop 5)) }

/-- The parsing part of `getCommits` (src/git-interface.js lines 225-246):
split the log output on `<END>\n`, drop empty pieces, parse each piece. -/
def getCommits (stdout : List Char) : List Commit :=
  ((jsSplit SENT stdout).filter (fun t => !t.isEmpty)).map parseCommitText

/-- One well-formed input record for the log output, as the claim describes
it: hash, author, email, epoch seconds, subject, then body lines. -/
structure RawCommit where
  hash : List Char
  author : List Char
  email : List Char
  epoch : Nat
  subject : List Char
  bodyLines : List (List Char)

/-- Text of a line sequence where every line is terminated by a newline. -/
def terminate (ls : List (List Char)) : List Char :=
  ls.foldr (fun l acc => l ++ '\n' :: acc) []

/-- The text of one record in the log output: each field on its own line,
then the body lines, each newline-terminated. -/
def renderRecord (r : RawCommit) : List Char :=
  terminate ([r.hash, r.author, r.email, natToDigits r.epoch, r.subject] ++ r.bodyLines)

/-- A full log output built from records, each followed by the sentinel and
its newline, as the default format string produces. -/
def renderLog (rs : List RawCommit) : List Char :=
  rs.foldr (fun r acc => renderRecord r ++ SENT ++ acc) []

/-- The commit record the claim says `getCommits` must produce for one
well-formed input record. -/
def expectedCommit (r : RawCommit) : Commit :=
  { hash := some r.hash, author := some r.author, email := some r.email,
    date := some ((r.epoch : Int) * 1000), subject := some r.subject,
    body := jsTrim (jsJoin ['\n'] r.bodyLines) }

/-- Well-formedness of an input record: the positional fields and body lines
are single lines, and the rendered record does not contain the sentinel
sequence. -/
abbrev WFRecord (r : RawCommit) : Prop :=
  hasSubstr SENT (renderRecord r) = false ∧
  '\n' ∉ r.hash ∧ '\n' ∉ r.author ∧ '\n' ∉ r.email ∧ '\n' ∉ r.subject ∧
  ∀ b ∈ r.bodyLines, '\n' ∉ b

/-- The status tags `getChanges` can assign. -/
inductive ChangeStatus where
  | untracked | modified | added | deleted | renamed | copied | unmerged | unknown
deriving DecidableEq, Repr

/-- One entry of the parsed change list. -/
structure ChangeEntry where
  status : ChangeStatus
  path : List Char
deriving DecidableEq, Repr

/-- The status-code dispatch of `getChanges` (src/git-interface.js lines
437-444), comparing `line.substring(0, 2)` against the listed literals in
order. -/
def statusOfCode (code : List Char) : ChangeStatus :=
  if code = "??".data then .untracked
  else if code = "M".data then .modified
  else if code = "A".data then .added
  else if code = "D".data then .deleted
  else if code = "R".data then .renamed
  else if code = "C".data then .copied
  else if code = "U".data then .unmerged
  else .unknown

/-- The parsing part of `getChanges` (src/git-interface.js lines 427-450):
split the status output into nonempty lines, read the two-character code with
`substring(0, 2)` and the path with `substring(3)`. -/
def getChanges (stdout : List Char) : List ChangeEntry :=
  ((jsSplit ['\n'] stdout).filter (fun l => !l.isEmpty)).map fun line =>
    { status := statusOfCode (line.take 2), path := line.drop 3 }

/-- The changed-file extraction inside `commit` (src/git-interface.js lines
138-142): `stdout.trim().split('\n')`, drop blank lines, take
`line.substring(3).trim()` of each. -/
def changedFilesOf (stdout : List Char) : List (List Char) :=
  ((jsSplit ['\n'] (jsTrim stdout)).filter (fun line => !(jsTrim line).isEmpty)).map
    (fun line => jsTrim (line.drop 3))

/-- The commit message actually passed to `git commit -m` by `commit`
(src/git-interface.js lines 134-156) as a function of the caller message and
of the `status --porcelain` output: an empty or whitespace-only caller
message triggers the automatic message policy, any other message is used
verbatim. -/
def commitMessage (message stdout : List Char) : List Char :=
  if jsTrim message = [] then
    let changedFiles := changedFilesOf stdout
    if changedFiles.length > 0 then
      let fileList :=
        if changedFiles.length ≤ 3 then jsJoin ", ".data changedFiles
        else jsJoin ", ".data (changedFiles.take 3) ++ " and ".data
          ++ natToDigits (changedFiles.length - 3) ++ " more files".data
      "Update ".data ++ fileList
    else "Empty commit".data
  else message

/-- Well-formedness of a path used to build porcelain status lines: nonempty,
a single line, and fixed by trimming on either end. -/
abbrev WFPath (p : List Char) : Prop :=
  p ≠ [] ∧ '\n' ∉ p ∧ p.dropWhile Char.isWhitespace = p ∧
  p.reverse.dropWhile Char.isWhitespace = p.reverse

/-- A porcelain status output whose lines are an untracked-file code followed
by the given paths, with a trailing newline. -/
def renderStatusLines (paths : List (List Char)) : List Char :=
  jsJoin ['\n'] (paths.map (fun p => "?? ".data ++ p)) ++ ['\n']

/-- Test for a non-whitespace character, JavaScript regex `\S`. -/
def nonWS (c : Char) : Bool := !c.isWhitespace

/-- One record of the remote list. -/
structure Remote where
  name : List Char
  url : List Char
  type : List Char
deriving DecidableEq, Repr

/-- The `(\S+)\)` tail of the remote-line regex applied after an opening
parenthesis: the greedy nonempty non-whitespace capture that is followed by a
closing parenthesis, i.e. the longest such prefix. -/
def parenCapture (s : List Char) : Option (List Char) :=
  let run := s.takeWhile nonWS
  let ks := (List.range (run.length + 1)).filter
    (fun k => decide (1 ≤ k) && (s[k]? == some ')'))
  match ks.getLast? with
  | some k => some (s.take k)
  | none => none

/-- Matching the regex `(\S+)\s+(\S+)\s+\((\S+)\)` at the start of `l`.  Each
`\S+` or `\s+` that is followed by a character of the opposite class can only
match its maximal run, so maximal munch is exact; only the final capture needs
the greedy backtracking of `parenCapture`. -/
def matchRemoteAt (l : List Char) : Option (List Char × List Char × List Char) :=
  let t1 := l.takeWhile nonWS
  if t1.isEmpty then none else
  let r1 := l.drop t1.length
  let s1 := r1.takeWhile Char.isWhitespace
  if s1.isEmpty then none else
  let r2 := r1.drop s1.length
  let t2 := r2.takeWhile nonWS
  if t2.isEmpty then none else
  let r3 := r2.drop t2.length
  let s2 := r3.takeWhile Char.isWhitespace
  if s2.isEmpty then none else
  match r3.drop s2.length with
  | '(' :: r5 =>
    match parenCapture r5 with
    | some g => some (t1, t2, g)
    | none => none
  | _ => none

/-- Unanchored search: the leftmost start position at which the remote-line
regex matches, as `line.match(...)` finds it. -/
def findRemoteMatch : List Char → Option (List Char × List Char × List Char)
  | [] => none
  | c :: rest =>
    match matchRemoteAt (c :: rest) with
    | some m => some m
    | none => findRemoteMatch rest

/-- The local array `remotes` that the loop in `getRemotes`
(src/git-interface.js lines 263-279) accumulates: one record per line the
regex matches, skipping the rest. -/
def remotesParsedList (stdout : List Char) : List Remote :=
  ((jsSplit ['\n'] stdout).filter (fun l => !l.isEmpty)).filterMap fun line =>
    (findRemoteMatch line).map fun m => { name := m.1, url := m.2.1, type := m.2.2 }

/-- The value `getRemotes` resolves with: the source builds `remotes` but
falls through without a `return` statement, so the resolved value is
`undefined`, modelled by `none`. -/
def getRemotes (stdout : List Char) : Option (List Remote) :=
  (fun _remotes => none) (remotesParsedList stdout)

/-- One record of the stash list as `listStashes` builds it; `index` is
`parseInt(match[1], 10)` with `none` modelling `NaN`, and `refence` is the
field name the source actually uses. -/
structure StashEntry where
  index : Option Int
  description : List Char
  refence : List Char
deriving DecidableEq, Repr

/-- Matching the regex `(stash@\{\d+\}): (.+)` at the start of `l`: the
literal `stash@{`, a maximal nonempty digit run (forced, since `}` is not a
digit), the literal `}: `, then a nonempty remainder up to a newline.
Returns the two captures. -/
def matchStashAt (l : List Char) : Option (List Char × List Char) :=
  if ("stash@".data ++ ['{']).isPrefixOf l then
    let after := l.drop 7
    let ds := after.takeWhile Char.isDigit
    if ds.isEmpty then none
    else
      match after.drop ds.length with
      | '}' :: ':' :: ' ' :: rest =>
        let d := rest.takeWhile (fun c => c != '\n')
        if d.isEmpty then none else some ("stash@".data ++ '{' :: ds ++ ['}'], d)
      | _ => none
  else none

/-- Unanchored search for the stash-line regex, leftmost match. -/
def findStashMatch : List Char → Option (List Char × List Char)
  | [] => none
  | c :: rest =>
    match matchStashAt (c :: rest) with
    | some m => some m
    | none => findStashMatch rest

/-- The parsing part of `listStashes` (src/git-interface.js lines 347-366):
for every nonempty line the regex matches, record
`parseInt(match[1], 10)` as the index, `match[2]` as the description and the
template `stash@{match[1]}` as the reference. -/
def listStashes (stdout : List Char) : List StashEntry :=
  ((jsSplit ['\n'] stdout).filter (fun l => !l.isEmpty)).filterMap fun line =>
    (findStashMatch line).map fun m =>
      { index := jsParseInt (some m.1), description := m.2,
        refence := "stash@".data ++ '{' :: m.1 ++ ['}'] }

/-- The result of `getConfig` (src/git-interface.js lines 368-379) as a
function of the process outcome: `execute` is called without `failOnError`,
its resolution is trimmed, and only a rejection whose message contains
`not found` is turned into `null` (`some none` here is `.ok none`). -/
def getConfig (outcome : ExecOutcome) : Except (List Char) (Option (List Char)) :=
  match execute false outcome with
  | .ok r => .ok (some (jsTrim r.stdout))
  | .error msg =>
    if hasSubstr "not found".data msg then .ok none else .error msg

/-- The identifier `commitHash` that `commitExists` interpolates into its
argument vector is not bound anywhere in the source (the parameter is named
`hash`), so looking it up yields nothing and evaluating the template literal
throws a `ReferenceError`. -/
def commitHashLookup : Option (List Char) := none

/-- The result of `commitExists` (src/git-interface.js lines 403-414): the
argument template evaluates `commitHash` inside the `try`, so the
`ReferenceError` is caught, its message does not contain `not found`, and the
error is rethrown; the remaining branches transcribe the source's try/catch
but are unreachable. -/
def commitExists (hash : List Char) (outcome : ExecOutcome) : Except (List Char) Bool :=
  match commitHashLookup with
  | none => .error "commitHash is not defined".data
  | some _ch =>
    match execute false outcome with
    | .ok _ => .ok true
    | .error msg =>
      if hasSubstr "not found".data msg then .ok false else .error msg

/-- Two concrete well-formed log records used to instantiate the universally
quantified log-parsing theorem. -/
def sampleRecords : List RawCommit :=
  [{ hash := "a1b2c3d".data, author := "Alice".data,
     email := "alice@example.com".data, epoch := 1700000000,
     subject := "Fix crash".data,
     bodyLines := ["first body line".data, "second body line".data] },
   { hash := "9f8e7d6".data, author := "Bob".data,
     email := "bob@example.com".data, epoch := 1700000123,
     subject := "Add feature".data, bodyLines := [] }]

/-- Four concrete well-formed paths used to instantiate the commit-message
policy theorem. -/
def samplePaths : List (List Char) :=
  ["a.txt".data, "b.txt".data, "c.txt".data, "d.txt".data]

-- Basic lemmas about the JavaScript string models.

theorem jsSplitF_adequate (sep : List Char) :
    ∀ f g s, s.length ≤ f → s.length ≤ g → jsSplitF sep f s = jsSplitF sep g s := by
  intro f
  induction f with
  | zero =>
    intro g s hf _
    have hs : s = [] := List.eq_nil_of_length_eq_zero (Nat.le_zero.mp hf)
    subst hs
    cases g <;> rfl
  | succ f ih =>
    intro g s hf hg
    cases s with
    | nil => cases g <;> rfl
    | cons c cs =>
      cases g with
      | zero => simp at hg
      | succ g =>
        simp only [jsSplitF]
        by_cases hcond : (!sep.isEmpty && sep.isPrefixOf (c :: cs)) = true
        · rw [if_pos hcond, if_pos hcond]
          have hlen : (cs.drop (sep.length - 1)).length ≤ f := by
            simp only [List.length_drop]
            simp only [List.length_cons] at hf
            omega
          have hlen2 : (cs.drop (sep.length - 1)).length ≤ g := by
            simp only [List.length_drop]
            simp only [List.length_cons] at hg
            omega
          rw [ih g _ hlen hlen2]
        · rw [if_neg hcond, if_neg hcond]
          have hcs : cs.length ≤ f := by
            simp only [List.length_cons] at hf; omega
          have hcs2 : cs.length ≤ g := by
            simp only [List.length_cons] at hg; omega
          rw [ih g cs hcs hcs2]

theorem jsSplit_nil (sep : List Char) : jsSplit sep [] = [[]] := rfl

theorem jsSplit_cons (sep : List Char) (c : Char) (cs : List Char) :
    jsSplit sep (c :: cs) =
      if !sep.isEmpty && sep.isPrefixOf (c :: cs) then
        [] :: jsSplit sep (cs.drop (sep.length - 1))
      else
        match jsSplit sep cs with
        | [] => [[c]]
        | p :: ps => (c :: p) :: ps := by
  show jsSplitF sep (cs.length + 1) (c :: cs) = _
  simp only [jsSplitF]
  rw [jsSplitF_adequate sep cs.length (cs.drop (sep.length - 1)).length
    (cs.drop (sep.length - 1)) (by simp [List.length_drop]) (le_refl _)]
  rfl

theorem boolCondFalse {b : Bool} (h : b = false) : ¬(b = true) := by simp [h]

theorem isPrefixOf_self_append (l t : List Char) : l.isPrefixOf (l ++ t) = true := by
  induction l with
  | nil => simp [List.isPrefixOf]
  | cons c cs ih => simp [List.isPrefixOf, ih]

theorem jsSplit_line (l s : List Char) (h : '\n' ∉ l) :
    jsSplit ['\n'] (l ++ '\n' :: s) = l :: jsSplit ['\n'] s := by
  induction l with
  | nil =>
    rw [List.nil_append, jsSplit_cons]
    have hcond : (!(['\n'] : List Char).isEmpty
        && (['\n'] : List Char).isPrefixOf ('\n' :: s)) = true := by
      simp [List.isPrefixOf]
    rw [if_pos hcond]
    simp
  | cons c l ih =>
    have hc : c ≠ '\n' := by
      intro hh
      exact h (hh ▸ List.mem_cons_self c l)
    rw [List.cons_append, jsSplit_cons]
    have hb : ('\n' == c) = false := beq_eq_false_iff_ne.mpr (fun hh => hc hh.symm)
    have hcond : (!(['\n'] : List Char).isEmpty
        && (['\n'] : List Char).isPrefixOf (c :: (l ++ '\n' :: s))) = false := by
      simp [List.isPrefixOf, hb]
    rw [if_neg (boolCondFalse hcond)]
    rw [ih (fun hm => h (List.mem_cons_of_mem c hm))]

theorem jsSplit_no_sep (l : List Char) (h : '\n' ∉ l) :
    jsSplit ['\n'] l = [l] := by
  induction l with
  | nil => rfl
  | cons c l ih =>
    have hc : c ≠ '\n' := by
      intro hh
      exact h (hh ▸ List.mem_cons_self c l)
    rw [jsSplit_cons]
    have hb : ('\n' == c) = false := beq_eq_false_iff_ne.mpr (fun hh => hc hh.symm)
    have hcond : (!(['\n'] : List Char).isEmpty
        && (['\n'] : List Char).isPrefixOf (c :: l)) = false := by
      simp [List.isPrefixOf, hb]
    rw [if_neg (boolCondFalse hcond)]
    rw [ih (fun hm => h (List.mem_cons_of_mem c hm))]

theorem jsSplit_append (sep a rest : List Char) (hsep : sep ≠ [])
    (h : ∀ t, t <:+ a → t ≠ [] → sep.isPrefixOf (t ++ (sep ++ rest)) = false) :
    jsSplit sep (a ++ (sep ++ rest)) = a :: jsSplit sep rest := by
  induction a with
  | nil =>
    rw [List.nil_append]
    cases sep with
    | nil => exact absurd rfl hsep
    | cons s0 s1 =>
      rw [List.cons_append, jsSplit_cons]
      have hpre : ((s0 :: s1) : List Char).isPrefixOf (s0 :: (s1 ++ rest)) = true := by
        have h2 := isPrefixOf_self_append (s0 :: s1) rest
        rwa [List.cons_append] at h2
      have hcond : (!((s0 :: s1) : List Char).isEmpty
          && ((s0 :: s1) : List Char).isPrefixOf (s0 :: (s1 ++ rest))) = true := by
        simp [hpre]
      rw [if_pos hcond]
      have hdrop : (s1 ++ rest).drop ((s0 :: s1).length - 1) = rest := by
        simp only [List.length_cons, Nat.add_sub_cancel]
        exact List.drop_left s1 rest
      rw [hdrop]
  | cons c a ih =>
    have hcfalse := h (c :: a) (List.suffix_refl _) (by simp)
    rw [List.cons_append] at hcfalse
    rw [List.cons_append, jsSplit_cons]
    have hcond : (!sep.isEmpty && sep.isPrefixOf (c :: (a ++ (sep ++ rest)))) = false := by
      rw [hcfalse]
      simp
    rw [if_neg (boolCondFalse hcond)]
    rw [ih (fun t ht hne => h t (ht.trans (List.suffix_cons c a)) hne)]

theorem hasSubstr_true_of (sep a t : List Char) (ht : t <:+ a)
    (hp : sep.isPrefixOf t = true) : hasSubstr sep a = true := by
  induction a with
  | nil =>
    have hnil : t = [] := List.suffix_nil.mp ht
    subst hnil
    cases sep with
    | nil => rfl
    | cons s0 s1 => simp [List.isPrefixOf] at hp
  | cons c a ih =>
    rcases List.suffix_cons_iff.mp ht with h1 | h2
    · subst h1
      simp [hasSubstr, hp]
    · simp [hasSubstr, ih h2]

theorem prefix_of_append_of_le (p t x : List Char) (h : p <+: t ++ x)
    (hl : p.length ≤ t.length) : p <+: t := by
  have h2 := List.prefix_iff_eq_take.mp h
  rw [List.take_append_eq_append_take,
    show p.length - t.length = 0 from by omega,
    List.take_zero, List.append_nil] at h2
  rw [h2]
  exact List.take_prefix p.length t

theorem sent_straddle (a rest : List Char) (ha : hasSubstr SENT a = false) :
    ∀ t, t <:+ a → t ≠ [] → SENT.isPrefixOf (t ++ (SENT ++ rest)) = false := by
  intro t ht hne
  cases hx : SENT.isPrefixOf (t ++ (SENT ++ rest)) with
  | false => rfl
  | true =>
    exfalso
    have hpre : SENT <+: t ++ (SENT ++ rest) := by
      rw [ List.isPrefixOf_iff_prefix] at hx
      exact hx
    rcases le_or_lt SENT.length t.length with hle | hlt
    · have h1 : SENT <+: t := prefix_of_append_of_le SENT t (SENT ++ rest) hpre hle
      have h2 : SENT.isPrefixOf t = true := by
        rw [ List.isPrefixOf_iff_prefix]
        exact h1
      simp [hasSubstr_true_of SENT a t ht h2] at ha
    · have heq : SENT = t ++ SENT.take (SENT.length - t.length) := by
        have h2 := List.prefix_iff_eq_take.mp hpre
        rw [List.take_append_eq_append_take,
          List.take_of_length_le (le_of_lt hlt),
          List.take_append_eq_append_take,
          show SENT.length - t.length - SENT.length = 0 from by omega,
          List.take_zero, List.append_nil] at h2
        exact h2
      have htake : t = SENT.take t.length := by
        have h3 := congrArg (List.take t.length) heq
        rw [List.take_left] at h3
        exact h3.symm
      have hlen1 : 1 ≤ t.length := List.length_pos.mpr hne
      have hlen5 : t.length ≤ 5 := by
        have hS : SENT.length = 6 := by decide
        omega
      have hcases : t.length = 1 ∨ t.length = 2 ∨ t.length = 3 ∨ t.length = 4
          ∨ t.length = 5 := by omega
      rcases hcases with h | h | h | h | h <;>
        (rw [h] at htake heq; rw [htake] at heq; exact absurd heq (by decide))

theorem terminate_cons (l : List Char) (ls : List (List Char)) :
    terminate (l :: ls) = l ++ '\n' :: terminate ls := rfl

theorem terminate_split (ls : List (List Char)) (h : ∀ l ∈ ls, '\n' ∉ l) :
    jsSplit ['\n'] (terminate ls) = ls ++ [[]] := by
  induction ls with
  | nil => rfl
  | cons l ls ih =>
    rw [terminate_cons, jsSplit_line l _ (h l (by simp))]
    rw [ih (fun x hx => h x (by simp [hx]))]
    rfl

theorem renderRecord_ne_nil (r : RawCommit) : renderRecord r ≠ [] := by
  unfold renderRecord
  rw [show ([r.hash, r.author, r.email, natToDigits r.epoch, r.subject] ++ r.bodyLines)
    = r.hash :: ([r.author, r.email, natToDigits r.epoch, r.subject] ++ r.bodyLines)
    from rfl]
  rw [terminate_cons]
  simp

theorem split_renderLog (rs : List RawCommit)
    (h : ∀ r ∈ rs, hasSubstr SENT (renderRecord r) = false) :
    jsSplit SENT (renderLog rs) = rs.map renderRecord ++ [[]] := by
  induction rs with
  | nil => rfl
  | cons r rs ih =>
    have hR : renderLog (r :: rs) = renderRecord r ++ (SENT ++ renderLog rs) := by
      simp [renderLog, List.append_assoc]
    rw [hR, jsSplit_append SENT (renderRecord r) (renderLog rs) (by decide)
      (sent_straddle (renderRecord r) (renderLog rs) (h r (by simp)))]
    rw [ih (fun x hx => h x (by simp [hx]))]
    rfl

theorem digitVal_digitChar (n : Nat) (h : n < 10) : digitVal (digitChar n) = n := by
  interval_cases n <;> decide

theorem digitChar_isDigit (n : Nat) : (digitChar n).isDigit = true := by
  unfold digitChar
  repeat' split
  all_goals decide

theorem not_ws_of_digit (c : Char) (h : c.isDigit = true) : c.isWhitespace = false := by
  cases hw : c.isWhitespace with
  | false => rfl
  | true =>
    exfalso
    have hc := hw
    simp only [Char.isWhitespace, Bool.or_eq_true, decide_eq_true_eq] at hc
    rcases hc with ((h1 | h1) | h1) | h1 <;> (subst h1; exact absurd h (by decide))

theorem digit_ne_of (c x : Char) (h : c.isDigit = true) (hx : x.isDigit = false) :
    c ≠ x := by
  intro hh
  rw [hh, hx] at h
  exact Bool.false_ne_true h

theorem natToDigitsF_adequate :
    ∀ f g n, n ≤ f → n ≤ g → natToDigitsF f n = natToDigitsF g n := by
  intro f
  induction f with
  | zero =>
    intro g n hf _
    have hn : n = 0 := Nat.le_zero.mp hf
    subst hn
    cases g with
    | zero => rfl
    | succ g =>
      show [digitChar (0 % 10)] = if (0 : Nat) < 10 then [digitChar 0] else _
      rw [if_pos (by omega)]
  | succ f ih =>
    intro g n hf hg
    cases g with
    | zero =>
      have hn : n = 0 := Nat.le_zero.mp hg
      subst hn
      show (if (0 : Nat) < 10 then [digitChar 0] else _) = [digitChar (0 % 10)]
      rw [if_pos (by omega)]
    | succ g =>
      simp only [natToDigitsF]
      by_cases h10 : n < 10
      · rw [if_pos h10, if_pos h10]
      · rw [if_neg h10, if_neg h10]
        have hlt : n / 10 < n := Nat.div_lt_self (by omega) (by norm_num)
        rw [ih g (n / 10) (by omega) (by omega)]

theorem natToDigits_eq (n : Nat) :
    natToDigits n =
      if n < 10 then [digitChar n]
      else natToDigits (n / 10) ++ [digitChar (n % 10)] := by
  unfold natToDigits
  cases n with
  | zero =>
    show [digitChar (0 % 10)] = if (0 : Nat) < 10 then [digitChar 0] else _
    rw [if_pos (by omega)]
  | succ m =>
    simp only [natToDigitsF]
    by_cases h10 : m + 1 < 10
    · rw [if_pos h10, if_pos h10]
    · rw [if_neg h10, if_neg h10]
      have hlt : (m + 1) / 10 < m + 1 := Nat.div_lt_self (by omega) (by norm_num)
      rw [natToDigitsF_adequate m ((m + 1) / 10) ((m + 1) / 10) (by omega) (le_refl _)]

theorem natToDigitsF_all_digits :
    ∀ f n, ∀ c ∈ natToDigitsF f n, c.isDigit = true := by
  intro f
  induction f with
  | zero =>
    intro n c hc
    simp only [natToDigitsF, List.mem_singleton] at hc
    subst hc
    exact digitChar_isDigit _
  | succ f ih =>
    intro n c hc
    simp only [natToDigitsF] at hc
    by_cases h10 : n < 10
    · rw [if_pos h10] at hc
      simp only [List.mem_singleton] at hc
      subst hc
      exact digitChar_isDigit _
    · rw [if_neg h10] at hc
      rcases List.mem_append.mp hc with h1 | h1
      · exact ih (n / 10) c h1
      · simp only [List.mem_singleton] at h1
        subst h1
        exact digitChar_isDigit _

theorem natToDigits_all_digits (n : Nat) : ∀ c ∈ natToDigits n, c.isDigit = true :=
  natToDigitsF_all_digits n n

theorem foldl_natToDigitsF :
    ∀ f n a, n ≤ f →
      (natToDigitsF f n).foldl (fun x c => x * 10 + digitVal c) a
        = a * 10 ^ (natToDigitsF f n).length + n := by
  intro f
  induction f with
  | zero =>
    intro n a hf
    have hn : n = 0 := Nat.le_zero.mp hf
    subst hn
    show a * 10 + digitVal (digitChar (0 % 10)) = a * 10 ^ 1 + 0
    rw [show (0 : Nat) % 10 = 0 from rfl, digitVal_digitChar 0 (by omega)]
    ring
  | succ f ih =>
    intro n a hf
    simp only [natToDigitsF]
    by_cases h10 : n < 10
    · rw [if_pos h10]
      show a * 10 + digitVal (digitChar n) = a * 10 ^ 1 + n
      rw [digitVal_digitChar n h10]
      ring
    · rw [if_neg h10]
      rw [List.foldl_append]
      have hlt : n / 10 < n := Nat.div_lt_self (by omega) (by norm_num)
      rw [ih (n / 10) a (by omega)]
      simp only [List.foldl_cons, List.foldl_nil, List.length_append,
        List.length_cons, List.length_nil]
      rw [digitVal_digitChar (n % 10) (Nat.mod_lt n (by norm_num))]
      have hmod : n / 10 * 10 + n % 10 = n := by omega
      have hkey : (a * 10 ^ (natToDigitsF f (n / 10)).length + n / 10) * 10 + n % 10
          = a * 10 ^ ((natToDigitsF f (n / 10)).length + 1) + n := by
        rw [pow_succ]
        calc (a * 10 ^ (natToDigitsF f (n / 10)).length + n / 10) * 10 + n % 10
            = a * (10 ^ (natToDigitsF f (n / 10)).length * 10)
              + (n / 10 * 10 + n % 10) := by ring
          _ = a * (10 ^ (natToDigitsF f (n / 10)).length * 10) + n := by rw [hmod]
      simpa using hkey

theorem digitsVal_natToDigits (n : Nat) : digitsVal (natToDigits n) = n := by
  unfold digitsVal natToDigits
  rw [foldl_natToDigitsF n n 0 (le_refl n)]
  simp

theorem takeWhile_eq_self (p : Char → Bool) (l : List Char)
    (h : ∀ c ∈ l, p c = true) : l.takeWhile p = l := by
  induction l with
  | nil => rfl
  | cons c cs ih =>
    rw [List.takeWhile_cons, if_pos (by simp [h c (by simp)])]
    rw [ih (fun x hx => h x (by simp [hx]))]

theorem natToDigits_ne_nil (n : Nat) : natToDigits n ≠ [] := by
  rw [natToDigits_eq]
  split <;> simp

theorem jsParseInt_digits (n : Nat) :
    jsParseInt (some (natToDigits n)) = some (n : Int) := by
  obtain ⟨d, ds, hds⟩ := List.exists_cons_of_ne_nil (natToDigits_ne_nil n)
  have hall : ∀ c ∈ d :: ds, c.isDigit = true := by
    rw [← hds]
    exact natToDigits_all_digits n
  have hd : d.isDigit = true := hall d (by simp)
  have hcore : jsParseIntCore (d :: ds) = some (n : Int) := by
    unfold jsParseIntCore
    rw [List.dropWhile_cons, if_neg (boolCondFalse (not_ws_of_digit d hd))]
    have hgoal : (parseDigitsPrefix (d :: ds)).map (fun m : Nat => (m : Int))
        = some (n : Int) := by
      unfold parseDigitsPrefix
      rw [takeWhile_eq_self Char.isDigit (d :: ds) hall]
      rw [if_neg (by simp)]
      rw [← hds, digitsVal_natToDigits]
      rfl
    split
    · next heq =>
      exfalso
      injection heq with h1 _
      exact digit_ne_of d '-' hd (by decide) h1
    · next heq =>
      exfalso
      injection heq with h1 _
      exact digit_ne_of d '+' hd (by decide) h1
    · exact hgoal
  show jsParseIntCore (natToDigits n) = some (n : Int)
  rw [hds]
  exact hcore

theorem dropWhile_fix_head (p : Char → Bool) (c : Char) (l : List Char)
    (h : (c :: l).dropWhile p = c :: l) : p c = false := by
  cases hp : p c with
  | false => rfl
  | true =>
    exfalso
    rw [List.dropWhile_cons, if_pos (by simp [hp])] at h
    have hle := (List.dropWhile_sublist (l := l) p).length_le
    rw [h] at hle
    simp at hle

theorem trimL_cons (c : Char) (l : List Char) (hc : Char.isWhitespace c = false) :
    (c :: l).dropWhile Char.isWhitespace = c :: l := by
  rw [List.dropWhile_cons, if_neg (boolCondFalse hc)]

theorem trimR_append (x y : List Char)
    (hy : y.reverse.dropWhile Char.isWhitespace = y.reverse) (hne : y ≠ []) :
    (x ++ y).reverse.dropWhile Char.isWhitespace = (x ++ y).reverse := by
  rw [List.reverse_append]
  cases hyr : y.reverse with
  | nil => exact absurd (by simpa using hyr) hne
  | cons c r =>
    rw [hyr] at hy
    have hc := dropWhile_fix_head Char.isWhitespace c r hy
    rw [List.cons_append]
    exact trimL_cons c (r ++ x.reverse) hc

theorem trim_of_ends (l : List Char)
    (h1 : l.dropWhile Char.isWhitespace = l)
    (h2 : l.reverse.dropWhile Char.isWhitespace = l.reverse) : jsTrim l = l := by
  unfold jsTrim
  rw [h1, h2, List.reverse_reverse]

theorem trim_append_newline (x : List Char) : jsTrim (x ++ ['\n']) = jsTrim x := by
  unfold jsTrim
  rw [List.dropWhile_append]
  by_cases he : (x.dropWhile Char.isWhitespace).isEmpty = true
  · rw [if_pos he]
    have hx : x.dropWhile Char.isWhitespace = [] := List.isEmpty_iff.mp he
    rw [hx]
    rw [show (['\n'] : List Char).dropWhile Char.isWhitespace = [] from by decide]
  · rw [if_neg he]
    rw [List.reverse_append, show (['\n'] : List Char).reverse = ['\n'] from rfl,
      List.singleton_append]
    rw [List.dropWhile_cons_of_pos (by decide)]

theorem jsJoin_cons_cons (sep l a : List Char) (ls : List (List Char)) :
    jsJoin sep (l :: a :: ls) = l ++ sep ++ jsJoin sep (a :: ls) := rfl

theorem jsJoin_concat_nil (sep : List Char) (bs : List (List Char)) (h : bs ≠ []) :
    jsJoin sep (bs ++ [[]]) = jsJoin sep bs ++ sep := by
  induction bs with
  | nil => exact absurd rfl h
  | cons b bs ih =>
    cases bs with
    | nil =>
      show jsJoin sep [b, []] = jsJoin sep [b] ++ sep
      rw [jsJoin_cons_cons]
      simp [jsJoin]
    | cons a bs2 =>
      have h1 : (b :: a :: bs2) ++ [[]] = b :: ((a :: bs2) ++ [[]]) := rfl
      rw [h1]
      have h2 : (a :: bs2) ++ [[]] = a :: (bs2 ++ [[]]) := rfl
      rw [h2, jsJoin_cons_cons, ← h2, ih (by simp), jsJoin_cons_cons]
      simp [List.append_assoc]

theorem jsJoin_head_structure (sep l : List Char) (ls : List (List Char)) :
    ∃ y, jsJoin sep (l :: ls) = l ++ y := by
  cases ls with
  | nil => exact ⟨[], by simp [jsJoin]⟩
  | cons a ls2 =>
    exact ⟨sep ++ jsJoin sep (a :: ls2), by rw [jsJoin_cons_cons, List.append_assoc]⟩

theorem jsJoin_last_structure (sep : List Char) :
    ∀ (ls : List (List Char)) (l : List Char), ∃ x, jsJoin sep (ls ++ [l]) = x ++ l := by
  intro ls
  induction ls with
  | nil => intro l; exact ⟨[], by simp [jsJoin]⟩
  | cons a ls2 ih =>
    intro l
    cases ls2 with
    | nil =>
      refine ⟨a ++ sep, ?_⟩
      rw [show ([a] : List (List Char)) ++ [l] = [a, l] from rfl, jsJoin_cons_cons]
      simp [jsJoin, List.append_assoc]
    | cons b ls3 =>
      obtain ⟨x, hx⟩ := ih l
      refine ⟨a ++ sep ++ x, ?_⟩
      have h1 : (a :: b :: ls3) ++ [l] = a :: ((b :: ls3) ++ [l]) := rfl
      have h2 : (b :: ls3) ++ [l] = b :: (ls3 ++ [l]) := rfl
      rw [h1, h2, jsJoin_cons_cons, ← h2, hx]
      simp [List.append_assoc]

theorem foldl_append_eq (l : List (List Char)) :
    ∀ a, l.foldl (fun x c => x ++ c) a = a ++ l.flatten := by
  induction l with
  | nil => intro a; simp
  | cons c l ih =>
    intro a
    rw [List.foldl_cons, ih, List.flatten_cons, List.append_assoc]

theorem accumulate_eq_flatten (chunks : List (List Char)) :
    accumulate chunks = chunks.flatten := by
  unfold accumulate
  rw [foldl_append_eq]
  simp

/-- Claim C1, counterexample: the resolved result of `execute` is identical
for exit code 0 and exit code 1 (non-strict mode), at a concrete chunk list,
so the resolved ExecutionResult does not contain the numeric exit code as the
claim states. -/
theorem execute_result_code_blind :
    execute false (.closed (some 0) [['a']] [['e']])
      = execute false (.closed (some 1) [['a']] [['e']])
    ∧ (0 : Nat) ≠ 1 := by
  constructor
  · rfl
  · decide

/-- Claim C1, amended: for a process that starts and closes with exit code 0,
`execute` resolves with the concatenation of all stdout chunks in arrival
order and the concatenation of all stderr chunks; the exit code is not part
of the resolved result (the resolution is the same for every exit code when
strict failure is not requested). -/
theorem execute_resolves_streams_only :
    (∀ oc ec : List (List Char),
      execute false (.closed (some 0) oc ec) = .ok ⟨oc.flatten, ec.flatten⟩)
    ∧ (∀ (oc ec : List (List Char)) (c : Option Nat),
      execute false (.closed c oc ec) = execute false (.closed (some 0) oc ec)) := by
  constructor
  · intro oc ec
    simp [execute, accumulate_eq_flatten]
  · intro oc ec c
    simp [execute]

/-- Claim C2, counterexample: a process killed on timeout closes with a null
exit code, and with `failOnError` unset `execute` resolves the partial output
as a normal result at this concrete input, so the call does not fail with a
Timeout error and a partial ExecutionResult is resolved as if successful. -/
theorem execute_timeout_resolves_partial :
    execute false (.closed none ["partial out".data] ["some stderr".data])
      = .ok { stdout := "partial out".data, stderr := "some stderr".data } := by
  rfl

/-- Claim C2, amended: the default timeout is 60000 ms and on its expiry the
process is killed and `close` fires with a null exit code, but `execute` has
no Timeout-specific handling: with `failOnError` unset it resolves the
partial output as a normal result, and with `failOnError` set it rejects
with the generic non-zero-exit message mentioning code `null`, carrying the
accumulated stderr. -/
theorem execute_timeout_behavior :
    executeTimeout none = 60000
    ∧ (∀ oc ec : List (List Char),
        execute false (.closed none oc ec) = .ok ⟨oc.flatten, ec.flatten⟩)
    ∧ (∀ oc ec : List (List Char),
        execute true (.closed none oc ec)
          = .error ("Git command failed with code null: ".data ++ ec.flatten)) := by
  refine ⟨rfl, ?_, ?_⟩
  · intro oc ec
    simp [execute, accumulate_eq_flatten]
  · intro oc ec
    have h1 : execute true (.closed none oc ec)
        = .error ("Git command failed with code ".data ++ showExitCode none
          ++ ": ".data ++ accumulate ec) := by
      simp only [execute]
      rw [if_pos (⟨trivial, by simp⟩ : True ∧ (none : Option Nat) ≠ some 0)]
    rw [h1, accumulate_eq_flatten]
    congr 1

theorem body_join_trim (bs : List (List Char)) :
    jsTrim (jsJoin ['\n'] (bs ++ [[]])) = jsTrim (jsJoin ['\n'] bs) := by
  cases bs with
  | nil => rfl
  | cons b bs2 =>
    rw [jsJoin_concat_nil ['\n'] (b :: bs2) (by simp)]
    exact trim_append_newline _

theorem parse_renderRecord (r : RawCommit) (h : WFRecord r) :
    parseCommitText (renderRecord r) = expectedCommit r := by
  obtain ⟨hS, hh, ha, he, hs, hb⟩ := h
  have hdig : '\n' ∉ natToDigits r.epoch := by
    intro hm
    exact absurd (natToDigits_all_digits r.epoch '\n' hm) (by decide)
  have hnl : ∀ l ∈ ([r.hash, r.author, r.email, natToDigits r.epoch, r.subject]
      ++ r.bodyLines), '\n' ∉ l := by
    intro l hl
    rcases List.mem_append.mp hl with h1 | h1
    · simp only [List.mem_cons, List.not_mem_nil, or_false] at h1
      rcases h1 with h1 | h1 | h1 | h1 | h1 <;> subst h1 <;> assumption
    · exact hb l h1
  have hlines : jsSplit ['\n'] (renderRecord r)
      = r.hash :: r.author :: r.email :: natToDigits r.epoch :: r.subject
        :: (r.bodyLines ++ [[]]) := by
    unfold renderRecord
    rw [terminate_split _ hnl]
    simp
  simp only [parseCommitText]
  rw [hlines]
  simp only [List.getElem?_cons_zero, List.getElem?_cons_succ,
    List.drop_succ_cons, List.drop_zero]
  rw [jsParseInt_digits, body_join_trim]
  simp [expectedCommit]

/-- Claim C3: for every log output consisting of well-formed records, each
giving hash, author, email, epoch seconds, subject and body lines terminated
by the default sentinel followed by a newline, `getCommits` returns exactly
one commit record per input record, in emission order, with hash, author,
email and subject equal to the corresponding positional input lines, the
body equal to the remaining lines joined and trimmed, and the timestamp
equal to epoch * 1000 milliseconds. -/
theorem getCommits_parses_wellformed_log (rs : List RawCommit)
    (h : ∀ r ∈ rs, WFRecord r) :
    getCommits (renderLog rs) = rs.map expectedCommit := by
  unfold getCommits
  rw [split_renderLog rs (fun r hr => (h r hr).1)]
  have hfilter : ((rs.map renderRecord ++ [[]]).filter (fun t => !t.isEmpty))
      = rs.map renderRecord := by
    rw [List.filter_append]
    have h2 : (([[]] : List (List Char)).filter (fun t => !t.isEmpty)) = [] := rfl
    rw [h2, List.append_nil]
    apply List.filter_eq_self.mpr
    intro a hamem
    obtain ⟨r, hr, hrr⟩ := List.mem_map.mp hamem
    subst hrr
    simp [List.isEmpty_iff, renderRecord_ne_nil r]
  rw [hfilter, List.map_map]
  apply List.map_congr_left
  intro r hr
  simp only [Function.comp]
  exact parse_renderRecord r (h r hr)

/-- Claim C3 witness: the log-parsing theorem applied to two concrete
well-formed records, with the well-formedness hypothesis discharged by
evaluation. -/
theorem getCommits_parses_wellformed_log_witness :
    (∀ r ∈ sampleRecords, WFRecord r)
    ∧ getCommits (renderLog sampleRecords) = sampleRecords.map expectedCommit :=
  ⟨by decide, getCommits_parses_wellformed_log sampleRecords (by decide)⟩

/-- Claim C4, counterexample: on a log output whose single sentinel-delimited
record has fewer lines than the format implies, `getCommits` does not fail
with a parse error; it returns a garbage record whose missing positional
fields are undefined and whose date is invalid. -/
theorem getCommits_short_record_garbage :
    getCommits "abc\n<END>\n".data
      = [{ hash := some "abc".data, author := some [], email := none,
           date := none, subject := none, body := [] }] := by
  rfl

/-- Claim C4, amended: `getCommits` cannot fail and never drops a record: it
returns exactly one commit per nonempty sentinel-delimited piece of the
output, and a piece with fewer lines than the format implies is silently
coerced into a partial record (its subject is undefined whenever the piece
has at most four lines). -/
theorem getCommits_total_on_short_records (stdout piece : List Char) :
    (getCommits stdout).length
      = ((jsSplit SENT stdout).filter (fun t => !t.isEmpty)).length
    ∧ ((jsSplit ['\n'] piece).length ≤ 4 → (parseCommitText piece).subject = none) := by
  constructor
  · unfold getCommits
    exact List.length_map _ _
  · intro hlen
    show (jsSplit ['\n'] piece)[4]? = none
    exact List.getElem?_eq_none hlen

/-- Claim C4 witness: the amended theorem applied at a concrete short
record. -/
theorem getCommits_total_on_short_records_witness :
    (getCommits "abc\n<END>\n".data).length
      = ((jsSplit SENT "abc\n<END>\n".data).filter (fun t => !t.isEmpty)).length
    ∧ (parseCommitText "abc\n".data).subject = none :=
  ⟨(getCommits_total_on_short_records "abc\n<END>\n".data "abc\n".data).1,
   (getCommits_total_on_short_records "abc\n<END>\n".data "abc\n".data).2 (by decide)⟩

/-- Claim C5: evaluation of the change parser on the four porcelain lines the
claim lists.  The source compares the full two-character code with the
one-character literals `M`, `A`, `D`, ..., which never match, so only `??`
is recognised; ` M b.txt`, `A  c.txt` and `D  d.txt` are tagged unknown
rather than modified, added, deleted, and the doubled space in `??  a.txt`
makes the recorded path ` a.txt`. -/
theorem getChanges_literal_eval :
    getChanges "??  a.txt\n M b.txt\nA  c.txt\nD  d.txt\n".data
      = [{ status := .untracked, path := " a.txt".data },
         { status := .unknown, path := "b.txt".data },
         { status := .unknown, path := "c.txt".data },
         { status := .unknown, path := "d.txt".data }] := by
  rfl

theorem jsSplit_join (lines : List (List Char)) (hne : lines ≠ [])
    (h : ∀ l ∈ lines, '\n' ∉ l) : jsSplit ['\n'] (jsJoin ['\n'] lines) = lines := by
  induction lines with
  | nil => exact absurd rfl hne
  | cons l ls ih =>
    cases ls with
    | nil => exact jsSplit_no_sep l (h l (by simp))
    | cons a ls2 =>
      rw [jsJoin_cons_cons]
      rw [show l ++ ['\n'] ++ jsJoin ['\n'] (a :: ls2)
          = l ++ '\n' :: jsJoin ['\n'] (a :: ls2) from by simp]
      rw [jsSplit_line l _ (h l (by simp))]
      rw [ih (by simp) (fun z hz => h z (by simp [hz]))]

theorem statusLine_trim (p : List Char) (h : WFPath p) :
    jsTrim ("?? ".data ++ p) = "?? ".data ++ p := by
  apply trim_of_ends
  · show (('?' :: ("? ".data ++ p)).dropWhile Char.isWhitespace)
      = '?' :: ("? ".data ++ p)
    exact trimL_cons _ _ (by decide)
  · exact trimR_append "?? ".data p h.2.2.2 h.1

theorem changedFiles_render (paths : List (List Char)) (h : ∀ p ∈ paths, WFPath p) :
    changedFilesOf (renderStatusLines paths) = paths := by
  cases paths with
  | nil => rfl
  | cons p0 ps =>
    have hlines : (p0 :: ps).map (fun p => "?? ".data ++ p)
        = ("?? ".data ++ p0) :: ps.map (fun p => "?? ".data ++ p) := by simp
    obtain ⟨y, hy⟩ := jsJoin_head_structure ['\n'] ("?? ".data ++ p0)
      (ps.map (fun p => "?? ".data ++ p))
    obtain ⟨ps0, pl, hconcat⟩ : ∃ ps0 pl, p0 :: ps = ps0 ++ [pl] := by
      rcases List.eq_nil_or_concat' (p0 :: ps) with h1 | ⟨L, b, h1⟩
      · simp at h1
      · exact ⟨L, b, h1⟩
    have hWFl : WFPath pl := by
      apply h
      rw [hconcat]
      simp
    have hJcons : jsJoin ['\n'] ((p0 :: ps).map (fun p => "?? ".data ++ p))
        = '?' :: (("? ".data ++ p0) ++ y) := by
      rw [hlines, hy]
      rfl
    have htrimL : (jsJoin ['\n'] ((p0 :: ps).map (fun p => "?? ".data ++ p))).dropWhile
        Char.isWhitespace = jsJoin ['\n'] ((p0 :: ps).map (fun p => "?? ".data ++ p)) := by
      rw [hJcons]
      exact trimL_cons _ _ (by decide)
    have hJlast : ∃ x, jsJoin ['\n'] ((p0 :: ps).map (fun p => "?? ".data ++ p))
        = x ++ pl := by
      rw [hconcat, List.map_append]
      simp only [List.map_cons, List.map_nil]
      obtain ⟨x, hx⟩ := jsJoin_last_structure ['\n']
        (ps0.map (fun p => "?? ".data ++ p)) ("?? ".data ++ pl)
      refine ⟨x ++ "?? ".data, ?_⟩
      rw [hx, ← List.append_assoc]
    obtain ⟨x, hxJ⟩ := hJlast
    have htrimR : (jsJoin ['\n'] ((p0 :: ps).map (fun p => "?? ".data ++ p))).reverse.dropWhile
        Char.isWhitespace
        = (jsJoin ['\n'] ((p0 :: ps).map (fun p => "?? ".data ++ p))).reverse := by
      rw [hxJ]
      exact trimR_append x pl hWFl.2.2.2 hWFl.1
    have htrimJ : jsTrim (jsJoin ['\n'] ((p0 :: ps).map (fun p => "?? ".data ++ p)))
        = jsJoin ['\n'] ((p0 :: ps).map (fun p => "?? ".data ++ p)) :=
      trim_of_ends _ htrimL htrimR
    have hnl : ∀ l ∈ (p0 :: ps).map (fun p => "?? ".data ++ p), '\n' ∉ l := by
      intro l hl
      obtain ⟨p, hpmem, rfl⟩ := List.mem_map.mp hl
      intro hmem
      rcases List.mem_append.mp hmem with h1 | h1
      · exact absurd h1 (by decide)
      · exact (h p hpmem).2.1 h1
    unfold changedFilesOf renderStatusLines
    rw [trim_append_newline, htrimJ]
    rw [jsSplit_join _ (by simp) hnl]
    have hfil : ((p0 :: ps).map (fun p => "?? ".data ++ p)).filter
        (fun line => !(jsTrim line).isEmpty) = (p0 :: ps).map (fun p => "?? ".data ++ p) := by
      apply List.filter_eq_self.mpr
      intro a hamem
      obtain ⟨p, hpmem, rfl⟩ := List.mem_map.mp hamem
      rw [statusLine_trim p (h p hpmem)]
      simp [List.isEmpty_iff]
    rw [hfil, List.map_map]
    have hpt : ∀ p ∈ p0 :: ps,
        ((fun line => jsTrim (line.drop 3)) ∘ (fun p => "?? ".data ++ p)) p = p := by
      intro p hpmem
      simp only [Function.comp]
      rw [List.drop_left' (show ("?? ".data).length = 3 from rfl)]
      exact trim_of_ends p (h p hpmem).2.2.1 (h p hpmem).2.2.2
    rw [List.map_congr_left hpt]
    simp

/-- Claim C6: when the caller message is empty or whitespace-only, the
committed message is `Empty commit` for an empty change list, `Update `
followed by the comma-joined paths for at most three changes, and `Update `
followed by the first three paths and ` and N more files` (N = total minus
three) for more; a non-empty caller message is used verbatim and the policy
is not invoked.  The change list is the one the source parses out of the
porcelain status output built from the given paths. -/
theorem commit_message_policy (message : List Char) (paths : List (List Char))
    (h : ∀ p ∈ paths, WFPath p) :
    (jsTrim message = [] →
      commitMessage message (renderStatusLines paths)
        = (if paths = [] then "Empty commit".data
           else if paths.length ≤ 3 then "Update ".data ++ jsJoin ", ".data paths
           else "Update ".data ++ jsJoin ", ".data (paths.take 3) ++ " and ".data
             ++ natToDigits (paths.length - 3) ++ " more files".data))
    ∧ (jsTrim message ≠ [] →
      commitMessage message (renderStatusLines paths) = message) := by
  constructor
  · intro hm
    rw [show commitMessage message (renderStatusLines paths)
        = (if (changedFilesOf (renderStatusLines paths)).length > 0 then
            "Update ".data
              ++ (if (changedFilesOf (renderStatusLines paths)).length ≤ 3 then
                jsJoin ", ".data (changedFilesOf (renderStatusLines paths))
               else jsJoin ", ".data ((changedFilesOf (renderStatusLines paths)).take 3)
                ++ " and ".data
                ++ natToDigits ((changedFilesOf (renderStatusLines paths)).length - 3)
                ++ " more files".data)
          else "Empty commit".data) from by
      unfold commitMessage
      rw [if_pos hm]]
    rw [changedFiles_render paths h]
    by_cases hpn : paths = []
    · subst hpn
      simp
    · rw [if_neg hpn, if_pos (List.length_pos.mpr hpn)]
      by_cases h3 : paths.length ≤ 3
      · rw [if_pos h3, if_pos h3]
      · rw [if_neg h3, if_neg h3]
        simp [List.append_assoc]
  · intro hm
    unfold commitMessage
    rw [if_neg hm]

/-- Claim C6 witness: with an empty caller message and the four concrete
paths, the committed message evaluates to the text the claim predicts. -/
theorem commit_message_policy_witness :
    (∀ p ∈ samplePaths, WFPath p)
    ∧ commitMessage [] (renderStatusLines samplePaths)
        = "Update a.txt, b.txt, c.txt and 1 more files".data := by
  refine ⟨by decide, ?_⟩
  have h1 := (commit_message_policy [] samplePaths (by decide)).1 (by decide)
  rw [h1]
  decide

/-- Claim C7: `getRemotes` never returns the parsed sequence: the source
builds the `remotes` array but falls through without returning it, so the
resolved value is undefined for every input, while the accumulated list at a
concrete two-line remote listing is the two parsed records the claim
expects. -/
theorem getRemotes_never_returns :
    (∀ stdout, getRemotes stdout = none)
    ∧ remotesParsedList
        "origin\thttps://example.com/repo.git (fetch)\norigin\thttps://example.com/repo.git (push)\n".data
      = [{ name := "origin".data, url := "https://example.com/repo.git".data,
           type := "fetch".data },
         { name := "origin".data, url := "https://example.com/repo.git".data,
           type := "push".data }] := by
  constructor
  · intro stdout
    rfl
  · rfl

/-- Claim C8: evaluation of the stash-list parser on two concrete well-formed
lines.  The description is the text after the colon and space as the claim
says, but the index is `parseInt` of the whole `stash@...` capture, which is
always NaN (modelled `none`), and the reference string wraps the already
canonical capture once more, yielding `stash@` followed by the doubled
braces, not the canonical reference. -/
theorem listStashes_nan_index_eval :
    listStashes ("stash@\x7b0\x7d: WIP on main: 1a2b3c Initial\nstash@\x7b12\x7d: On dev: try things\n".data)
      = [{ index := none, description := "WIP on main: 1a2b3c Initial".data,
           refence := "stash@\x7bstash@\x7b0\x7d\x7d".data },
         { index := none, description := "On dev: try things".data,
           refence := "stash@\x7bstash@\x7b12\x7d\x7d".data }] := by
  rfl

/-- Claim C9: `getConfig` calls `execute` without `failOnError`, so a process
that closes with any exit code resolves normally and `getConfig` returns the
trimmed stdout; at the concrete input the claim describes (exit code 1,
stderr containing `not found`, empty stdout) the result is the empty string,
not null and not an error. -/
theorem getConfig_resolves_trimmed_stdout :
    (∀ (code : Option Nat) (oc ec : List (List Char)),
      getConfig (.closed code oc ec) = .ok (some (jsTrim (accumulate oc))))
    ∧ getConfig (.closed (some 1) [] ["fatal: section not found".data])
        = .ok (some []) := by
  constructor
  · intro code oc ec
    rfl
  · rfl

/-- Claim C10: `commitExists` interpolates the undefined identifier
`commitHash` instead of its `hash` parameter, so for every hash argument and
every process outcome the call rejects with the same ReferenceError; it
never consults the supplied hash and never returns true or false. -/
theorem commitExists_always_reference_error :
    ∀ (hash : List Char) (outcome : ExecOutcome),
      commitExists hash outcome = .error "commitHash is not defined".data := by
  intro hash outcome
  rfl
